import Mathlib

set_option autoImplicit false

/-!
# Verification of the `xi` session-history core

Shallow embedding of the session-history tree of the `xi` coding assistant.

* `src/agent/session.ts` (session lifecycle: `createSession`, `loadSession`,
  `sessionExists`, `listSessions`) is embedded directly from the source.
* `src/agent/session-manager.ts` is imported by `session.ts` but the file is
  absent from the repository snapshot; only its type declarations and the
  `generateId` body appear in the design document.  Those operations are
  modelled from the specification (each such definition says so in its doc
  comment); `generateId` and the entry/tree types are taken from the design
  document verbatim.
* `src/db/bun-sqlite-adapter.ts` provides the `transaction` wrapper
  (BEGIN/COMMIT/ROLLBACK) used to model durable-write atomicity.

Machine strings are Lean `String` (JS strings of the relevant functions are
ASCII identifiers and paths); timestamps are `Nat` (Unix epoch ms);
randomness (`randomUUID`) is embedded as an explicit stream of draws.
-/

namespace Xi

/-- Role of a message entry: `"user" | "assistant" | "toolResult"`
(design document §1.2, `MessageEntry.role`). -/
inductive Role where
  | user
  | assistant
  | toolResult
deriving DecidableEq, Repr

/-- Payload of a `MessageEntry` (design document §1.2): role, content
(`string | ContentBlock[]`, abstracted to its text), optional tool-call
records, optional provider/model attribution. -/
structure MessageData where
  role : Role
  content : String
  toolCalls : List String
  provider : Option String
  model : Option String
deriving DecidableEq, Repr

/-- The tagged-union payload of a `SessionEntry` (design document §1.2):
`message` / `model_change` / `compaction`. -/
inductive EntryData where
  | message (data : MessageData)
  | modelChange (provider : String) (modelId : String)
  | compaction (summary : String) (firstKeptEntryId : String) (tokensBefore : Nat)
deriving DecidableEq, Repr

/-- A session entry: shared base fields (`id`, `parentId`, `timestamp`,
design document §1.2 `SessionEntryBase`) plus the variant payload. -/
structure SessionEntry where
  id : String
  parentId : Option String
  timestamp : Nat
  data : EntryData
deriving DecidableEq, Repr

/-- Errors of the session core (spec §7): unknown entry id, unresolvable
replayed ancestry, failed durable append. -/
inductive SessionError where
  | notFound
  | corrupt
  | storage
deriving DecidableEq, Repr

/-- Modelled from the spec: the `SessionManager` state (design document §2.1
declares the class; its implementation file is absent from the snapshot).
The in-memory index is the list of entries in durable write order — the
id→entry map and parentId→children index of the spec are the derived
lookups `getEntry` / `getChildren` below — plus the single leaf cursor. -/
structure SessionManager where
  entries : List SessionEntry
  leafId : Option String
deriving DecidableEq, Repr

/-- Modelled from the spec: `SessionManager.create(cwd)` — "fresh header,
empty index, leaf = null" (spec §4.2).  The header carries no tree state,
so the model keeps only the empty index and null cursor. -/
def SessionManager.create (_cwd : String) : SessionManager :=
  { entries := [], leafId := none }

/-- Modelled from the spec: `getEntry(id)` point lookup in the id→entry
index (spec §4.2).  The declared signature in the design document §2.1 is
`getEntry(id: string): SessionEntry | undefined`, i.e. a sentinel return,
embedded as `Option`. -/
def getEntry (sm : SessionManager) (id : String) : Option SessionEntry :=
  sm.entries.find? (fun e => e.id == id)

/-- Modelled from the spec: `getChildren(parentId)` returns the entries
whose `parentId` equals the given id, in original append order
(spec §4.2); the write-ordered entry list filtered by parent. -/
def getChildren (sm : SessionManager) (parentId : String) : List SessionEntry :=
  sm.entries.filter (fun e => e.parentId == some parentId)

/-- Modelled from the spec: the common core of the three append operations
(spec §4.2) — construct a new entry with `parentId = current leaf id`, the
given freshly generated id and current timestamp, append it to the store
in write order, advance the leaf cursor, return the new id. -/
def appendEntry (sm : SessionManager) (id : String) (ts : Nat) (d : EntryData) :
    SessionManager × String :=
  ({ entries := sm.entries ++ [⟨id, sm.leafId, ts, d⟩], leafId := some id }, id)

/-- Modelled from the spec: `appendMessage(message)` (spec §4.2). -/
def appendMessage (sm : SessionManager) (id : String) (ts : Nat) (m : MessageData) :
    SessionManager × String :=
  appendEntry sm id ts (.message m)

/-- Modelled from the spec: `appendModelChange(provider, modelId)`
(spec §4.2). -/
def appendModelChange (sm : SessionManager) (id : String) (ts : Nat)
    (provider modelId : String) : SessionManager × String :=
  appendEntry sm id ts (.modelChange provider modelId)

/-- Modelled from the spec: `appendCompaction(summary, firstKeptEntryId,
tokensBefore)` (spec §4.2). -/
def appendCompaction (sm : SessionManager) (id : String) (ts : Nat)
    (summary firstKeptEntryId : String) (tokensBefore : Nat) :
    SessionManager × String :=
  appendEntry sm id ts (.compaction summary firstKeptEntryId tokensBefore)

/-- Modelled from the spec: `getLeafId()` (spec §4.2). -/
def getLeafId (sm : SessionManager) : Option String :=
  sm.leafId

/-- Modelled from the spec: `branch(branchFromId)` moves the leaf cursor to
`branchFromId` without appending anything; fails with `NotFoundError` when
the id is unknown (spec §4.2). -/
def branch (sm : SessionManager) (branchFromId : String) :
    Except SessionError SessionManager :=
  match getEntry sm branchFromId with
  | some _ => .ok { sm with leafId := some branchFromId }
  | none => .error .notFound

/-- Modelled from the spec: `resetLeaf()` sets the leaf cursor to null
(spec §4.2). -/
def resetLeaf (sm : SessionManager) : SessionManager :=
  { sm with leafId := none }

/-- Modelled from the spec: the upward walk of `getBranch` — follow parent
links from an id to the nearest null-parent ancestor, producing the
root-to-target sequence (the source walks up then reverses; the embedding
builds the reversed list directly).  The walk in the source terminates
because parents always precede children; the embedding makes that explicit
with fuel, `none` marking unresolvable ancestry (`CorruptEntryError`). -/
def walkUp (sm : SessionManager) : Nat → String → Option (List SessionEntry)
  | 0, _ => none
  | fuel + 1, id =>
    match getEntry sm id with
    | none => none
    | some e =>
      match e.parentId with
      | none => some [e]
      | some p => (walkUp sm fuel p).map (fun l => l ++ [e])

/-- Modelled from the spec: `getBranch(fromId)` — walk parent links upward
from `fromId` to the nearest null-parent ancestor and return the
root-to-target ordered sequence; fails with `NotFoundError` when `fromId`
does not exist (spec §4.2).  Fuel `entries.length` suffices for any
well-formed session. -/
def getBranchFrom (sm : SessionManager) (fromId : String) :
    Except SessionError (List SessionEntry) :=
  match getEntry sm fromId with
  | none => .error .notFound
  | some _ =>
    match walkUp sm sm.entries.length fromId with
    | some path => .ok path
    | none => .error .corrupt

/-- Modelled from the spec: `getBranch()` with the argument defaulted to the
current leaf (spec §4.2); the empty session yields the empty path. -/
def getBranch (sm : SessionManager) : Except SessionError (List SessionEntry) :=
  match sm.leafId with
  | none => .ok []
  | some l => getBranchFrom sm l

/-- A node of the reconstructed forest (design document §1.3,
`SessionTreeNode`). -/
inductive SessionTreeNode where
  | node (entry : SessionEntry) (children : List SessionTreeNode)

/-- Modelled from the spec: recursive subtree construction for `getTree()`,
each node carrying the ordered child subtrees built from `getChildren`
(spec §4.2).  Fuel bounds the recursion depth; `entries.length` suffices
for any well-formed session. -/
def buildNode (sm : SessionManager) : Nat → SessionEntry → SessionTreeNode
  | 0, e => .node e []
  | fuel + 1, e => .node e ((getChildren sm e.id).map (buildNode sm fuel))

/-- Modelled from the spec: `getTree()` reconstructs the full forest, one
top-level node per null-parent entry (spec §4.2). -/
def getTree (sm : SessionManager) : List SessionTreeNode :=
  (sm.entries.filter (fun e => e.parentId == none)).map
    (buildNode sm sm.entries.length)

/-- A provider-agnostic message record produced by `buildSessionContext`
(spec §4.3 step 4): role, content and tool-call records. -/
structure CtxMessage where
  role : Role
  content : String
  toolCalls : List String
deriving DecidableEq, Repr

/-- Modelled from the spec: the path scan of `buildSessionContext`
(spec §4.3 steps 2–4).  The accumulator keeps, for each accumulated
message, the id of the entry it came from, so that a `CompactionEntry`
can discard everything strictly before `firstKeptEntryId` and replace it
with the summary as a single synthetic message (modelled with role
`user`; the spec does not constrain the synthetic role).  The second
component tracks the most recent `ModelChangeEntry` (provider, modelId). -/
def buildContextAux :
    List SessionEntry → List (String × CtxMessage) → Option (String × String) →
    List (String × CtxMessage) × Option (String × String)
  | [], acc, model => (acc, model)
  | e :: rest, acc, model =>
    match e.data with
    | .message m =>
      buildContextAux rest (acc ++ [(e.id, ⟨m.role, m.content, m.toolCalls⟩)]) model
    | .modelChange p mid => buildContextAux rest acc (some (p, mid))
    | .compaction summary firstKeptEntryId _ =>
      buildContextAux rest
        ((e.id, ⟨Role.user, summary, []⟩) ::
          acc.dropWhile (fun pr => !(pr.1 == firstKeptEntryId)))
        model

/-- Modelled from the spec: `buildSessionContext()` — obtain the
root-to-leaf path via `getBranch`, scan it applying compaction truncation
and model-change tracking, and return the ordered messages plus the active
model descriptor (spec §4.3). -/
def buildSessionContext (sm : SessionManager) :
    Except SessionError (List CtxMessage × Option (String × String)) :=
  match getBranch sm with
  | .error e => .error e
  | .ok path =>
    let r := buildContextAux path [] none
    .ok (r.1.map Prod.snd, r.2)

/-- `randomUUID().slice(0, 8)` — the short candidate id (design document
§2.3). -/
def take8 (s : String) : String :=
  ⟨s.data.take 8⟩

/-- The retry loop of `generateId` (design document §2.3) at iteration `i`
with `fuel` iterations remaining (the loop runs iterations `0..99`, so it
starts with `fuel = 100`): while fuel remains, try the short candidate
`take8 (draws i)` and return it unless it collides with an existing id;
once the fuel is exhausted (`i = 100`) the result is the full draw
`draws i`, returned without any membership check.  `draws` is the stream
of successive `randomUUID()` outputs. -/
def generateIdGo (byId : List String) (draws : Nat → String) :
    Nat → Nat → String
  | i, 0 => draws i
  | i, fuel + 1 =>
    let cand := take8 (draws i)
    if byId.contains cand then generateIdGo byId draws (i + 1) fuel else cand

/-- `generateId` from the design document §2.3:
`for (let i = 0; i < 100; i++) { const id = randomUUID().slice(0, 8);
if (!byId.has(id)) return id; } return randomUUID();`. -/
def generateId (byId : List String) (draws : Nat → String) : String :=
  generateIdGo byId draws 0 100

/-- Decidable chain check for a root-to-target path: every adjacent pair
satisfies `later.parentId = some earlier.id`. -/
def chainOk : List SessionEntry → Bool
  | [] => true
  | [_] => true
  | a :: b :: rest => (b.parentId == some a.id) && chainOk (b :: rest)

/-- Decidable well-formedness of the entry list in write order, relative to
the ids already seen: ids are globally distinct and every non-null
`parentId` references a previously seen id (spec §3 invariants: unique
ids, no forward or dangling parent references). -/
def wfFrom : List String → List SessionEntry → Bool
  | _, [] => true
  | seen, e :: rest =>
    !(seen.contains e.id) &&
      (match e.parentId with
       | none => true
       | some p => seen.contains p) &&
      wfFrom (seen ++ [e.id]) rest

/-- Decidable well-formedness of a `SessionManager` state: the entry list
is well-formed and the leaf cursor, when set, names an existing entry
(spec §3 invariants). -/
def WellFormed (sm : SessionManager) : Bool :=
  wfFrom [] sm.entries &&
    (match sm.leafId with
     | none => true
     | some l => (getEntry sm l).isSome)

/-! ## Durable writes (spec §4.1, §5; `transaction` in
`src/db/bun-sqlite-adapter.ts`)

The durable `EntryStore` is the list of records in write order.  A write
attempt either succeeds (the record becomes durable) or fails with a
`StorageError`; the adapter's `transaction` wrapper runs BEGIN / fn /
COMMIT and on any error ROLLBACK, so a failed write leaves the store
exactly as it was. -/

/-- Modelled from the spec: one `append*` call made through the durable
store (spec §4.2, §5; the `SessionManager` implementation file is absent
from the snapshot).  `writeOk` is the outcome of the underlying medium:
on success the record is durably appended and the in-memory index and
leaf cursor advance; on failure the ROLLBACK of
`BunSqliteAdapter.transaction` leaves the store unchanged and the
in-memory state is not advanced — the operation fails as a unit. -/
def appendThrough (sm : SessionManager) (store : List SessionEntry)
    (writeOk : Bool) (id : String) (ts : Nat) (d : EntryData) :
    (SessionManager × List SessionEntry) × Except SessionError String :=
  if writeOk then
    (((appendEntry sm id ts d).1, store ++ [⟨id, sm.leafId, ts, d⟩]), .ok id)
  else
    ((sm, store), .error .storage)

/-! ## Session lifecycle (`src/agent/session.ts`)

The lifecycle functions touch the filesystem only inside the sessions
directory `join(baseDir, ".zi/sessions")` of one base directory: existence
checks of `{id}.db` files, creation of the directory and of the backing
`.db` file (`AgentFS.open` via `BunSqliteAdapter`, which opens SQLite with
`create: true`), and `readdirSync` of the directory.  The filesystem is
therefore embedded as the state of that one directory: whether it exists,
and the base names it contains in `readdirSync` order. -/

/-- `node:path.join` for the paths the lifecycle builds (plain relative
segments, no normalization applies). -/
def joinPath (a b : String) : String :=
  a ++ "/" ++ b

/-- `SESSIONS_DIR = ".zi/sessions"` (session.ts line 16). -/
def SESSIONS_DIR : String :=
  ".zi/sessions"

/-- `getSessionsDir(baseDir)` (session.ts lines 18–20); the `process.cwd()`
default for a missing `baseDir` is resolved by the caller here. -/
def getSessionsDir (baseDir : String) : String :=
  joinPath baseDir SESSIONS_DIR

/-- `getSessionPath(id, baseDir)` (session.ts lines 22–24). -/
def getSessionPath (id : String) (baseDir : String) : String :=
  joinPath (getSessionsDir baseDir) (id ++ ".db")

/-- State of the sessions directory: whether it exists and the file base
names it contains, in `readdirSync` order. -/
structure SessionsDir where
  dirExists : Bool
  files : List String
deriving DecidableEq, Repr

/-- `existsSync` on a path inside the sessions directory: the directory
exists and contains the base name. -/
def existsFile (st : SessionsDir) (name : String) : Bool :=
  st.dirExists && st.files.contains name

/-- `sessionExists(id, baseDir)` (session.ts lines 74–77):
`existsSync(getSessionPath(id, baseDir))`. -/
def sessionExists (id : String) (st : SessionsDir) : Bool :=
  existsFile st (id ++ ".db")

/-- The `Session` value built by `createSession` / `loadSession`
(session.ts lines 6–14); the `fs`/`kv`/`tools` handles are external
`agentfs-sdk` collaborators and carry no session-tree state. -/
structure Session where
  id : String
  path : String
  sessionManager : SessionManager
deriving DecidableEq, Repr

/-- `ensureSessionsDir` (session.ts lines 26–31): `mkdirSync` with
`recursive: true` when the directory does not exist. -/
def ensureSessionsDir (st : SessionsDir) : SessionsDir :=
  if st.dirExists then st else { dirExists := true, files := [] }

/-- `createSession(id, baseDir)` (session.ts lines 33–50): ensure the
sessions directory, open the backing store at `getSessionPath(id,
baseDir)` (`AgentFS.open` with `BunSqliteAdapter` creates the `.db` file
when absent), and build the `Session` with a fresh
`SessionManager.create(cwd)`. -/
def createSession (id : String) (baseDir : String) (st : SessionsDir) :
    SessionsDir × Session :=
  let st1 := ensureSessionsDir st
  let fname := id ++ ".db"
  let st2 : SessionsDir :=
    { dirExists := true
      files := if st1.files.contains fname then st1.files else st1.files ++ [fname] }
  (st2, { id := id, path := getSessionPath id baseDir
          sessionManager := SessionManager.create baseDir })

/-- `loadSession(id, baseDir)` (session.ts lines 52–72): throw
`"Session not found: <id>"` when no file exists at the session path;
otherwise open the store and build the `Session` — with
`SessionManager.create(cwd)`, a fresh empty manager (session.ts line 61);
no replay of the durable entries happens. -/
def loadSession (id : String) (baseDir : String) (st : SessionsDir) :
    Except String Session :=
  if sessionExists id st then
    .ok { id := id, path := getSessionPath id baseDir
          sessionManager := SessionManager.create baseDir }
  else
    .error ("Session not found: " ++ id)

/-- First-occurrence replacement by the empty string on character lists:
JS `String.prototype.replace(pat, "")` with a string pattern replaces only
the first occurrence. -/
def replaceFirstAux (pat : List Char) : List Char → List Char
  | [] => []
  | c :: cs =>
    if pat.isPrefixOf (c :: cs) then (c :: cs).drop pat.length
    else c :: replaceFirstAux pat cs

/-- JS `s.replace(pat, "")`: remove the first occurrence of `pat` from
`s` (no occurrence: `s` unchanged). -/
def replaceFirst (s pat : String) : String :=
  ⟨replaceFirstAux pat.data s.data⟩

/-- JS `s.endsWith(suf)`. -/
def strEndsWith (s suf : String) : Bool :=
  suf.data.isSuffixOf s.data

/-- Whether `pat` occurs as a contiguous substring of the character list. -/
def hasSubstrAux (pat : List Char) : List Char → Bool
  | [] => pat.isPrefixOf []
  | c :: cs => pat.isPrefixOf (c :: cs) || hasSubstrAux pat cs

/-- Whether `pat` occurs as a contiguous substring of `s`. -/
def hasSubstr (s pat : String) : Bool :=
  hasSubstrAux pat.data s.data

/-- `listSessions(baseDir)` (session.ts lines 79–87): empty when the
sessions directory does not exist; otherwise the `.db`-suffixed directory
entries with `f.replace(".db", "")` applied — the FIRST occurrence of
`".db"` removed, not necessarily the final extension. -/
def listSessions (st : SessionsDir) : List String :=
  if st.dirExists then
    (st.files.filter (fun f => strEndsWith f ".db")).map
      (fun f => replaceFirst f ".db")
  else []


/-! ## Shared concrete state and helper lemmas -/

/-- A plain text message payload, used by the concrete scenarios. -/
def demoMessage (r : Role) (c : String) : MessageData :=
  ⟨r, c, [], none, none⟩

/-- The branching scenario of spec §8: append `a`, append `b` (child of
`a`), `branch(a)`, append `c` (second child of `a`); the leaf is `c`. -/
def smDemo : SessionManager :=
  let s1 := (appendMessage (SessionManager.create "/base") "a" 1 (demoMessage .user "hi")).1
  let s2 := (appendMessage s1 "b" 2 (demoMessage .assistant "hello")).1
  let s3 := match branch s2 "a" with | .ok sm => sm | .error _ => s2
  (appendMessage s3 "c" 3 (demoMessage .assistant "hey")).1

/-- Appending a fresh id makes `getEntry` of that id return the new entry:
its parent is the pre-call leaf cursor. -/
theorem getEntry_appendEntry_fresh (sm : SessionManager) (id : String) (ts : Nat)
    (d : EntryData) (h : ∀ e ∈ sm.entries, e.id ≠ id) :
    getEntry (appendEntry sm id ts d).1 id = some ⟨id, sm.leafId, ts, d⟩ := by
  unfold getEntry appendEntry
  rw [List.find?_append]
  have hnone : sm.entries.find? (fun e => e.id == id) = none :=
    List.find?_eq_none.2 (fun e he => by simpa using h e he)
  simp [hnone, List.find?]

/-- Claim C9: `loadSession(id, baseDir)` fails with the exact message
`"Session not found: <id>"` precisely when no file exists at the session
path (equivalently, when `sessionExists` is false); when the file exists
it resolves to a `Session` whose `id` is the given id and whose `path` is
the sessions-directory path for that id (and whose manager is the fresh
`SessionManager.create baseDir`, cf. claim C1). -/
theorem loadSession_contract (id baseDir : String) (st : SessionsDir) :
    (loadSession id baseDir st = .error ("Session not found: " ++ id) ↔
      sessionExists id st = false) ∧
    (sessionExists id st = true →
      loadSession id baseDir st =
        .ok ⟨id, getSessionPath id baseDir, SessionManager.create baseDir⟩) := by
  unfold loadSession
  cases h : sessionExists id st <;> simp [h]

/-- Witness for `loadSession_contract` at a concrete store. -/
theorem loadSession_contract_witness :
    sessionExists "s1" ⟨true, ["s1.db"]⟩ = true ∧
    loadSession "s1" "/base" ⟨true, ["s1.db"]⟩ =
      .ok ⟨"s1", getSessionPath "s1" "/base", SessionManager.create "/base"⟩ :=
  ⟨by decide, (loadSession_contract "s1" "/base" ⟨true, ["s1.db"]⟩).2 (by decide)⟩

/-- Claim C1 (code bug): the reopen path does not restore the tree.
`loadSession` builds its manager with `SessionManager.create(cwd)`
(session.ts line 61) instead of an open/replay path, so after close and
reopen of a session whose pre-close state was `smDemo` (three entries,
one created via `branch`, leaf `"c"`), the reopened manager's `getTree()`
is the empty forest and `getLeafId()` is `null` — neither is preserved,
contradicting the round-trip property and the design document's
"persists messages across restarts" integration test. -/
theorem loadSession_discards_history :
    loadSession "s1" "/base" ⟨true, ["s1.db"]⟩ =
      .ok ⟨"s1", getSessionPath "s1" "/base", SessionManager.create "/base"⟩ ∧
    getTree (SessionManager.create "/base") = [] ∧
    getLeafId (SessionManager.create "/base") = none ∧
    (getTree smDemo).length = 1 ∧
    getLeafId smDemo = some "c" ∧
    getTree (SessionManager.create "/base") ≠ getTree smDemo ∧
    getLeafId (SessionManager.create "/base") ≠ getLeafId smDemo := by
  refine ⟨rfl, rfl, rfl, by decide, by decide, ?_, by decide⟩
  intro h
  exact absurd (congrArg List.length h) (by decide)

/-- Claim C8 (counterexample): `getEntry` with a never-appended id succeeds
with the undefined-like sentinel (`none`), per its declared signature
`getEntry(id: string): SessionEntry | undefined` in the design document;
it does not fail with `NotFoundError`. -/
theorem getEntry_missing_none_concrete :
    getEntry smDemo "zzz" = none ∧ (∀ e ∈ smDemo.entries, e.id ≠ "zzz") := by
  constructor
  · decide
  · decide

/-- Claim C8 (amended): for every id that was never appended, `getEntry`
returns the not-found sentinel `none` (rather than throwing); the sentinel
convention is the one the declared signature picks. -/
theorem getEntry_missing_returns_sentinel (sm : SessionManager) (id : String)
    (h : ∀ e ∈ sm.entries, e.id ≠ id) :
    getEntry sm id = none :=
  List.find?_eq_none.2 (fun e he => by simpa using h e he)

/-- Witness for `getEntry_missing_returns_sentinel`. -/
theorem getEntry_missing_returns_sentinel_witness :
    getEntry smDemo "nope" = none :=
  getEntry_missing_returns_sentinel smDemo "nope" (by decide)

/-- Claim C3: every append operation returns the new entry's id, advances
the leaf cursor to exactly that id, and (when the generated id is fresh,
as the id-generation invariant guarantees) the new entry's `parentId` is
the leaf id observed immediately before the call — `none` when the
session was empty, making the new entry a root. -/
theorem append_advances_leaf_and_parent (sm : SessionManager) (id : String)
    (ts : Nat) (m : MessageData) (prov mid summary fk : String) (tb : Nat) :
    ((appendMessage sm id ts m).2 = id ∧
     (appendModelChange sm id ts prov mid).2 = id ∧
     (appendCompaction sm id ts summary fk tb).2 = id) ∧
    (getLeafId (appendMessage sm id ts m).1 = some id ∧
     getLeafId (appendModelChange sm id ts prov mid).1 = some id ∧
     getLeafId (appendCompaction sm id ts summary fk tb).1 = some id) ∧
    ((∀ e ∈ sm.entries, e.id ≠ id) →
      (getEntry (appendMessage sm id ts m).1 id).map SessionEntry.parentId =
        some (getLeafId sm) ∧
      (getEntry (appendModelChange sm id ts prov mid).1 id).map SessionEntry.parentId =
        some (getLeafId sm) ∧
      (getEntry (appendCompaction sm id ts summary fk tb).1 id).map SessionEntry.parentId =
        some (getLeafId sm)) := by
  refine ⟨⟨rfl, rfl, rfl⟩, ⟨rfl, rfl, rfl⟩, fun h => ⟨?_, ?_, ?_⟩⟩ <;>
  · simp only [appendMessage, appendModelChange, appendCompaction]
    rw [getEntry_appendEntry_fresh sm id ts _ h]
    rfl

/-- Witness for `append_advances_leaf_and_parent` on `smDemo` with the
fresh id `"x"`. -/
theorem append_advances_leaf_and_parent_witness :
    (∀ e ∈ smDemo.entries, e.id ≠ "x") ∧
    getLeafId (appendMessage smDemo "x" 9 (demoMessage .user "m")).1 = some "x" ∧
    (getEntry (appendMessage smDemo "x" 9 (demoMessage .user "m")).1 "x").map
      SessionEntry.parentId = some (getLeafId smDemo) :=
  ⟨by decide,
   (append_advances_leaf_and_parent smDemo "x" 9 (demoMessage .user "m")
      "p" "mo" "s" "c" 0).2.1.1,
   ((append_advances_leaf_and_parent smDemo "x" 9 (demoMessage .user "m")
      "p" "mo" "s" "c" 0).2.2 (by decide)).1⟩

/-- Claim C4: an append whose durable write fails leaves the manager and
the durable store exactly as they were — the leaf cursor, the id-map and
the children-index (both derived from `entries`) are all at their
pre-call values; and for either outcome the in-memory index never
diverges from the durable store. -/
theorem append_write_failure_atomic (sm : SessionManager)
    (store : List SessionEntry) (id : String) (ts : Nat) (d : EntryData) :
    (appendThrough sm store false id ts d = ((sm, store), .error .storage) ∧
     getLeafId (appendThrough sm store false id ts d).1.1 = getLeafId sm ∧
     (∀ i, getEntry (appendThrough sm store false id ts d).1.1 i = getEntry sm i) ∧
     (∀ p, getChildren (appendThrough sm store false id ts d).1.1 p = getChildren sm p)) ∧
    (∀ writeOk : Bool, sm.entries = store →
      (appendThrough sm store writeOk id ts d).1.1.entries =
        (appendThrough sm store writeOk id ts d).1.2) := by
  refine ⟨⟨rfl, rfl, fun _ => rfl, fun _ => rfl⟩, fun ok h => ?_⟩
  cases ok <;> simp [appendThrough, appendEntry, h]

/-- Witness for `append_write_failure_atomic` on `smDemo` with a store in
sync with the index. -/
theorem append_write_failure_atomic_witness :
    smDemo.entries = smDemo.entries ∧
    (appendThrough smDemo smDemo.entries true "x" 9
        (.message (demoMessage .user "m"))).1.1.entries =
      (appendThrough smDemo smDemo.entries true "x" 9
        (.message (demoMessage .user "m"))).1.2 :=
  ⟨rfl,
   (append_write_failure_atomic smDemo smDemo.entries "x" 9
      (.message (demoMessage .user "m"))).2 true rfl⟩

/-- Claim C5: `branch(x)` on an existing id moves the leaf cursor to `x`
and appends nothing; a subsequent `appendMessage` produces an entry with
`parentId = x`, and `getChildren(x)` afterwards is every prior child of
`x` followed by the new entry (append order); `branch` of an unknown id
fails with `NotFoundError`. -/
theorem branch_spec (sm : SessionManager) (x : String) :
    ((getEntry sm x).isSome = true →
      ∃ sm', branch sm x = .ok sm' ∧ getLeafId sm' = some x ∧
        sm'.entries = sm.entries ∧
        (∀ id ts m,
          (appendMessage sm' id ts m).1.entries =
            sm.entries ++ [⟨id, some x, ts, .message m⟩] ∧
          getChildren (appendMessage sm' id ts m).1 x =
            getChildren sm x ++ [⟨id, some x, ts, .message m⟩])) ∧
    (getEntry sm x = none → branch sm x = .error .notFound) := by
  constructor
  · intro hs
    obtain ⟨e, he⟩ := Option.isSome_iff_exists.1 hs
    refine ⟨{ sm with leafId := some x }, ?_, rfl, rfl, fun id ts m => ⟨rfl, ?_⟩⟩
    · unfold branch
      rw [he]
    · show getChildren ⟨sm.entries ++ [⟨id, some x, ts, .message m⟩], some id⟩ x = _
      unfold getChildren
      rw [List.filter_append]
      simp
  · intro hn
    unfold branch
    rw [hn]

/-! ## Id generation (design document §2.3) -/

/-- When every short candidate in the window collides, the loop falls
through to the unchecked full draw. -/
theorem generateIdGo_all_collide (byId : List String) (draws : Nat → String) :
    ∀ fuel i, (∀ j, i ≤ j → j < i + fuel → byId.contains (take8 (draws j)) = true) →
      generateIdGo byId draws i fuel = draws (i + fuel) := by
  intro fuel
  induction fuel with
  | zero => intro i _; rfl
  | succ f ih =>
    intro i h
    have hc : byId.contains (take8 (draws i)) = true := h i le_rfl (by omega)
    show (if byId.contains (take8 (draws i)) then generateIdGo byId draws (i + 1) f
          else take8 (draws i)) = _
    rw [hc]
    simp only [if_true]
    rw [ih (i + 1) (fun j h1 h2 => h j (by omega) (by omega))]
    congr 1
    omega

/-- When some short candidate in the window is fresh, the loop's result is
fresh. -/
theorem generateIdGo_some_fresh (byId : List String) (draws : Nat → String) :
    ∀ fuel i, (∃ j, i ≤ j ∧ j < i + fuel ∧ byId.contains (take8 (draws j)) = false) →
      byId.contains (generateIdGo byId draws i fuel) = false := by
  intro fuel
  induction fuel with
  | zero => intro i ⟨j, h1, h2, _⟩; omega
  | succ f ih =>
    intro i ⟨j, h1, h2, h3⟩
    show byId.contains (if byId.contains (take8 (draws i)) then
          generateIdGo byId draws (i + 1) f else take8 (draws i)) = false
    cases hc : byId.contains (take8 (draws i)) with
    | false => simpa [hc] using hc
    | true =>
      simp only [if_true]
      apply ih
      refine ⟨j, ?_, by omega, h3⟩
      rcases Nat.eq_or_lt_of_le h1 with rfl | hlt
      · rw [hc] at h3; exact absurd h3 (by simp)
      · omega

/-- The adversarial random stream for the `generateId` counterexample:
every `randomUUID()` call returns the same UUID. -/
def collideDraws : Nat → String :=
  fun _ => "aaaaaaaa-bbbb-cccc-dddd-eeeeeeeeeeee"

/-- An index already containing both the 8-character slice of that UUID
(a previously generated short id) and the full UUID (a previously
generated fallback id). -/
def collideById : List String :=
  ["aaaaaaaa", "aaaaaaaa-bbbb-cccc-dddd-eeeeeeeeeeee"]

/-- Claim C7 (counterexample): the fallback identifier is NOT structurally
guaranteed unique — `generateId` returns `randomUUID()` without any
membership check after 100 collisions, so with this draw stream it
returns an id already present in the index. -/
theorem generateId_collision_possible :
    generateId collideById collideDraws = "aaaaaaaa-bbbb-cccc-dddd-eeeeeeeeeeee" ∧
    collideById.contains (generateId collideById collideDraws) = true := by
  constructor
  · decide
  · decide

/-- Claim C7 (amended): `generateId` re-rolls a short 8-character random
identifier up to 100 times while it collides; if any of the 100 short
candidates is fresh the returned id is not in the index, and if all 100
collide it returns the 101st full-length draw UNCHECKED — the fallback's
uniqueness is only probabilistic (collision-resistant), not structural. -/
theorem generateId_retry_spec (byId : List String) (draws : Nat → String) :
    ((∃ j, j < 100 ∧ byId.contains (take8 (draws j)) = false) →
      byId.contains (generateId byId draws) = false) ∧
    ((∀ j, j < 100 → byId.contains (take8 (draws j)) = true) →
      generateId byId draws = draws 100) := by
  constructor
  · intro ⟨j, hj, hfresh⟩
    exact generateIdGo_some_fresh byId draws 100 0 ⟨j, Nat.zero_le j, by omega, hfresh⟩
  · intro h
    exact generateIdGo_all_collide byId draws 100 0 (fun j _ hj => h j (by omega))

/-- Witness for `generateId_retry_spec`: both hypotheses exercised at
concrete inputs — a stream whose first short candidate is fresh, and the
all-colliding stream. -/
theorem generateId_retry_spec_witness :
    collideById.contains
      (generateId collideById (fun _ => "01234567-8888-9999-aaaa-bbbbbbbbbbbb")) = false ∧
    generateId collideById collideDraws = collideDraws 100 :=
  ⟨(generateId_retry_spec collideById
      (fun _ => "01234567-8888-9999-aaaa-bbbbbbbbbbbb")).1 ⟨0, by omega, by decide⟩,
   (generateId_retry_spec collideById collideDraws).2
     (fun j _ => by simp only [collideDraws]; decide)⟩

/-! ## Context reconstruction (spec §4.3) -/

/-- Discriminant test for the `compaction` variant (spec §3 tagged
union). -/
def isCompaction (e : SessionEntry) : Bool :=
  match e.data with
  | .compaction _ _ _ => true
  | _ => false

/-- The verbatim conversion of a run of entries (spec §4.3 step 4): each
`MessageEntry` becomes one provider-agnostic message (role, content,
tool-call records) tagged with its originating entry id; other entry
kinds contribute no message. -/
def pairMsgs (l : List SessionEntry) : List (String × CtxMessage) :=
  l.filterMap (fun e =>
    match e.data with
    | .message m => some (e.id, ⟨m.role, m.content, m.toolCalls⟩)
    | _ => none)

/-- The path scan is compositional: scanning `xs ++ ys` is scanning `ys`
from the accumulator and model state left by `xs`. -/
theorem buildContextAux_append : ∀ (xs ys : List SessionEntry)
    (acc : List (String × CtxMessage)) (model : Option (String × String)),
    buildContextAux (xs ++ ys) acc model =
      buildContextAux ys (buildContextAux xs acc model).1
        (buildContextAux xs acc model).2 := by
  intro xs
  induction xs with
  | nil => intro ys acc model; rfl
  | cons e rest ih =>
    intro ys acc model
    cases hd : e.data with
    | message m =>
      simp only [List.cons_append, buildContextAux, hd]
      exact ih ys _ _
    | modelChange p mid =>
      simp only [List.cons_append, buildContextAux, hd]
      exact ih ys _ _
    | compaction s f t =>
      simp only [List.cons_append, buildContextAux, hd]
      exact ih ys _ _

/-- A compaction-free run of entries is accumulated verbatim: it appends
exactly its message entries' conversions to the accumulator. -/
theorem buildContextAux_no_compaction : ∀ (l : List SessionEntry)
    (acc : List (String × CtxMessage)) (model : Option (String × String)),
    (∀ e ∈ l, isCompaction e = false) →
    (buildContextAux l acc model).1 = acc ++ pairMsgs l := by
  intro l
  induction l with
  | nil => intro acc model _; simp [buildContextAux, pairMsgs]
  | cons e rest ih =>
    intro acc model h
    cases hd : e.data with
    | message m =>
      simp only [buildContextAux, hd]
      rw [ih _ model (fun x hx => h x (by simp [hx]))]
      simp [pairMsgs, hd]
    | modelChange p mid =>
      simp only [buildContextAux, hd]
      rw [ih _ _ (fun x hx => h x (by simp [hx]))]
      simp [pairMsgs, hd]
    | compaction s f t =>
      have := h e (by simp)
      rw [show isCompaction e = true from by simp [isCompaction, hd]] at this
      cases this

/-- Splitting the accumulated messages at the first occurrence of the
kept id: the compaction's `dropWhile` discards exactly the accumulated
prefix strictly before `firstKeptEntryId` and keeps the rest. -/
theorem dropWhile_until_first_kept (fk : String) :
    ∀ (discarded kept : List (String × CtxMessage)),
    (∀ x ∈ discarded, (x.1 == fk) = false) →
    (∀ x, kept.head? = some x → (x.1 == fk) = true) →
    List.dropWhile (fun pr => !(pr.1 == fk)) (discarded ++ kept) = kept := by
  intro discarded
  induction discarded with
  | nil =>
    intro kept _ hk
    cases kept with
    | nil => rfl
    | cons x rest =>
      have hx := hk x rfl
      simp [List.dropWhile, hx]
  | cons d ds ih =>
    intro kept hd hk
    have h1 : (d.1 == fk) = false := hd d (by simp)
    simp only [List.cons_append, List.dropWhile, h1, Bool.not_false]
    exact ih kept (fun x hx => hd x (by simp [hx])) hk

/-- Claim C2: for every root-to-leaf path scanned by
`buildSessionContext` that contains a `CompactionEntry` — the path
decomposed as `pre ++ comp :: post` with `post` the (arbitrarily long,
compaction-free) remainder — and for every split of the messages
accumulated over `pre` into the prefix strictly before the entry with id
`firstKeptEntryId` and the rest starting at that entry (arbitrary
position), the resulting messages are exactly one synthetic message
carrying the compaction's summary text in place of the discarded prefix,
followed by the kept accumulated messages unchanged and the verbatim
conversions of the post-compaction entries.  The a/b/c/compaction/d
scenario of the claim is the witness instance. -/
theorem buildSessionContext_compaction_truncation
    (sm : SessionManager) (pre post : List SessionEntry) (comp : SessionEntry)
    (summary fk : String) (tb : Nat)
    (discarded kept : List (String × CtxMessage))
    (hpath : getBranch sm = .ok (pre ++ comp :: post))
    (hcomp : comp.data = .compaction summary fk tb)
    (hacc : (buildContextAux pre [] none).1 = discarded ++ kept)
    (hdisc : ∀ x ∈ discarded, (x.1 == fk) = false)
    (hkept : ∀ x, kept.head? = some x → (x.1 == fk) = true)
    (hpost : ∀ e ∈ post, isCompaction e = false) :
    (buildSessionContext sm).map Prod.fst =
      .ok ((⟨Role.user, summary, []⟩ : CtxMessage) ::
        (kept.map Prod.snd ++ (pairMsgs post).map Prod.snd)) := by
  unfold buildSessionContext
  rw [hpath]
  simp only [Except.map]
  have h1 := buildContextAux_append pre (comp :: post) [] none
  have h2 : buildContextAux (comp :: post) (buildContextAux pre [] none).1
      (buildContextAux pre [] none).2 =
      buildContextAux post
        ((comp.id, ⟨Role.user, summary, []⟩) ::
          (buildContextAux pre [] none).1.dropWhile (fun pr => !(pr.1 == fk)))
        (buildContextAux pre [] none).2 := by
    simp only [buildContextAux, hcomp]
  rw [h1, h2, hacc, dropWhile_until_first_kept fk discarded kept hdisc hkept]
  rw [buildContextAux_no_compaction post _ _ hpost]
  simp

/-- The compaction scenario state of the claim: messages `a`, `b`, `c`
appended in order, then a `CompactionEntry` with
`firstKeptEntryId = "c"`, then a post-compaction message `d`. -/
def smCompacted : SessionManager :=
  let s1 := (appendMessage (SessionManager.create "/cwd") "a" 1 (demoMessage .user "A")).1
  let s2 := (appendMessage s1 "b" 2 (demoMessage .assistant "B")).1
  let s3 := (appendMessage s2 "c" 3 (demoMessage .user "C")).1
  let s4 := (appendCompaction s3 "k" 4 "SUM" "c" 42).1
  (appendMessage s4 "d" 5 (demoMessage .assistant "D")).1

/-- Witness for `buildSessionContext_compaction_truncation`: the claim's
own scenario — `a`, `b`, `c`, compaction keeping `"c"`, then `d` —
yields the summary message followed by `c`'s and `d`'s messages. -/
theorem buildSessionContext_compaction_truncation_witness :
    (buildSessionContext smCompacted).map Prod.fst =
      .ok [(⟨Role.user, "SUM", []⟩ : CtxMessage), ⟨Role.user, "C", []⟩,
           ⟨Role.assistant, "D", []⟩] :=
  buildSessionContext_compaction_truncation smCompacted
    [⟨"a", none, 1, .message (demoMessage .user "A")⟩,
     ⟨"b", some "a", 2, .message (demoMessage .assistant "B")⟩,
     ⟨"c", some "b", 3, .message (demoMessage .user "C")⟩]
    [⟨"d", some "k", 5, .message (demoMessage .assistant "D")⟩]
    ⟨"k", some "c", 4, .compaction "SUM" "c" 42⟩
    "SUM" "c" 42
    [("a", ⟨Role.user, "A", []⟩), ("b", ⟨Role.assistant, "B", []⟩)]
    [("c", ⟨Role.user, "C", []⟩)]
    rfl rfl rfl (by decide)
    (fun x hx => by cases hx; decide)
    (by decide)

/-! ## Well-formed replay order and `getBranch` (spec §3, §4.2) -/

/-- Decomposition of `wfFrom` at a cons. -/
theorem wfFrom_cons_iff (seen : List String) (e : SessionEntry) (rest : List SessionEntry) :
    wfFrom seen (e :: rest) = true ↔
      seen.contains e.id = false ∧
      (∀ p, e.parentId = some p → seen.contains p = true) ∧
      wfFrom (seen ++ [e.id]) rest = true := by
  simp only [wfFrom, Bool.and_eq_true, Bool.not_eq_true']
  cases hp : e.parentId with
  | none => simp [hp]
  | some p => simp [hp, and_assoc]

/-- In a well-formed suffix no entry reuses an already-seen id. -/
theorem wfFrom_id_notin_seen : ∀ (l : List SessionEntry) (seen : List String),
    wfFrom seen l = true → ∀ s ∈ seen, ∀ i, ∀ h : i < l.length, (l.get ⟨i, h⟩).id ≠ s := by
  intro l
  induction l with
  | nil => intro seen _ s _ i h; exact absurd h (by simp)
  | cons e rest ih =>
    intro seen hwf s hs i h
    obtain ⟨h1, _, h3⟩ := (wfFrom_cons_iff seen e rest).1 hwf
    cases i with
    | zero =>
      intro heq
      have heq2 : e.id = s := heq
      rw [heq2] at h1
      have : s ∈ seen → seen.contains s = true := fun hm => by simpa using hm
      rw [this hs] at h1
      cases h1
    | succ j =>
      exact ih (seen ++ [e.id]) h3 s (List.mem_append_left _ hs) j (by simpa using h)

/-- Well-formedness gives pairwise-distinct entry ids. -/
theorem wfFrom_nodup : ∀ (l : List SessionEntry) (seen : List String),
    wfFrom seen l = true → (l.map (fun e => e.id)).Nodup := by
  intro l
  induction l with
  | nil => intro seen _; simp
  | cons e rest ih =>
    intro seen hwf
    obtain ⟨_, _, h3⟩ := (wfFrom_cons_iff seen e rest).1 hwf
    refine List.nodup_cons.2 ⟨?_, ih (seen ++ [e.id]) h3⟩
    intro hmem
    obtain ⟨f, hf, hfid⟩ := List.mem_map.1 hmem
    obtain ⟨⟨j, hj⟩, hget⟩ := List.get_of_mem hf
    have := wfFrom_id_notin_seen rest (seen ++ [e.id]) h3 e.id
      (List.mem_append_right _ (by simp)) j hj
    rw [hget] at this
    exact this hfid

/-- Well-formedness resolves every non-null parent reference to a strictly
earlier entry (or to an id seen before the suffix). -/
theorem wfFrom_parent_earlier : ∀ (l : List SessionEntry) (seen : List String),
    wfFrom seen l = true → ∀ i, ∀ h : i < l.length, ∀ p,
      (l.get ⟨i, h⟩).parentId = some p →
      p ∈ seen ∨ ∃ j, ∃ hj : j < l.length, j < i ∧ (l.get ⟨j, hj⟩).id = p := by
  intro l
  induction l with
  | nil => intro seen _ i h; exact absurd h (by simp)
  | cons e rest ih =>
    intro seen hwf i h p hp
    obtain ⟨h1, h2, h3⟩ := (wfFrom_cons_iff seen e rest).1 hwf
    cases i with
    | zero =>
      left
      have := h2 p hp
      simpa using this
    | succ j =>
      rcases ih (seen ++ [e.id]) h3 j (by simpa using h) p hp with hin | ⟨k, hk, hki, hkid⟩
      · rcases List.mem_append.1 hin with hseen | hid
        · exact Or.inl hseen
        · right
          refine ⟨0, by simp, Nat.succ_pos j, ?_⟩
          simpa using (List.mem_singleton.1 hid).symm
      · right
        exact ⟨k + 1, by simpa using hk, by omega, hkid⟩

/-- With pairwise-distinct ids, the id-indexed `find?` at position `i`
returns exactly the entry at position `i`. -/
theorem find?_id_get : ∀ (l : List SessionEntry), (l.map (fun e => e.id)).Nodup →
    ∀ i, ∀ h : i < l.length,
      l.find? (fun e => e.id == (l.get ⟨i, h⟩).id) = some (l.get ⟨i, h⟩) := by
  intro l
  induction l with
  | nil => intro _ i h; exact absurd h (by simp)
  | cons e rest ih =>
    intro hnd i h
    obtain ⟨hni, hndr⟩ := List.nodup_cons.1 hnd
    cases i with
    | zero => exact List.find?_cons_of_pos _ (by simp)
    | succ j =>
      have hj : j < rest.length := by simpa using h
      have hne : (e.id == ((e :: rest).get ⟨j + 1, h⟩).id) = false := by
        have hmem : ((rest.get ⟨j, hj⟩).id) ∈ rest.map (fun e => e.id) :=
          List.mem_map.2 ⟨rest.get ⟨j, hj⟩, List.get_mem rest j hj, rfl⟩
        have : e.id ≠ (rest.get ⟨j, hj⟩).id :=
          fun heq => hni (by show e.id ∈ _; rw [heq]; exact hmem)
        simpa using this
      show List.find? _ (e :: rest) = _
      rw [List.find?_cons_of_neg _ (by simpa using hne)]
      exact ih hndr j hj

/-- Extending a parent-linked chain by a child of its last element keeps it
a chain. -/
theorem chainOk_append_last : ∀ (l : List SessionEntry) (a e : SessionEntry),
    chainOk l = true → l.getLast? = some a → e.parentId = some a.id →
    chainOk (l ++ [e]) = true := by
  intro l
  induction l with
  | nil => intro a e _ hl _; simp at hl
  | cons x rest ih =>
    intro a e hch hl hp
    cases rest with
    | nil =>
      have hax : a = x := by simpa using hl.symm
      subst hax
      show chainOk [a, e] = true
      simp [chainOk, hp]
    | cons y rest2 =>
      have hdecomp : (y.parentId == some x.id) = true ∧ chainOk (y :: rest2) = true := by
        have h0 : ((y.parentId == some x.id) && chainOk (y :: rest2)) = true := hch
        simpa [Bool.and_eq_true] using h0
      have hl' : (y :: rest2).getLast? = some a := by
        rw [← List.getLast?_cons_cons]
        exact hl
      show chainOk (x :: y :: (rest2 ++ [e])) = true
      show ((y.parentId == some x.id) && chainOk (y :: (rest2 ++ [e]))) = true
      rw [Bool.and_eq_true]
      exact ⟨hdecomp.1, ih a e hdecomp.2 hl' hp⟩

/-- The upward walk on a well-formed index terminates within the fuel and
produces a non-empty root-to-target chain: with distinct ids and parents
at strictly earlier indices, `walkUp` from the entry at index `i` with
fuel above `i` returns a path starting at a null-parent entry, ending at
the entry itself, with consecutive parent links. -/
theorem walkUp_spec (sm : SessionManager)
    (hnd : (sm.entries.map (fun e => e.id)).Nodup)
    (hpar : ∀ i, ∀ h : i < sm.entries.length, ∀ p,
      (sm.entries.get ⟨i, h⟩).parentId = some p →
      ∃ j, ∃ hj : j < sm.entries.length, j < i ∧ (sm.entries.get ⟨j, hj⟩).id = p) :
    ∀ i, ∀ h : i < sm.entries.length, ∀ fuel, i < fuel →
      ∃ path, walkUp sm fuel ((sm.entries.get ⟨i, h⟩).id) = some path ∧
        path ≠ [] ∧
        (∀ hd, path.head? = some hd → hd.parentId = none) ∧
        path.getLast? = some (sm.entries.get ⟨i, h⟩) ∧
        chainOk path = true := by
  intro i
  induction i using Nat.strong_induction_on with
  | _ i IH =>
    intro h fuel hfuel
    obtain ⟨f, rfl⟩ : ∃ f, fuel = f + 1 := ⟨fuel - 1, by omega⟩
    have hget : getEntry sm ((sm.entries.get ⟨i, h⟩).id) = some (sm.entries.get ⟨i, h⟩) :=
      find?_id_get sm.entries hnd i h
    cases hp : (sm.entries.get ⟨i, h⟩).parentId with
    | none =>
      refine ⟨[sm.entries.get ⟨i, h⟩], ?_, by simp, ?_, by simp, rfl⟩
      · show walkUp sm (f + 1) _ = _
        simp only [walkUp, hget, hp]
      · intro hd hhd
        have : sm.entries.get ⟨i, h⟩ = hd := by simpa using hhd
        rw [← this]
        exact hp
    | some p =>
      obtain ⟨j, hj, hji, hjid⟩ := hpar i h p hp
      obtain ⟨path', hw, hne, hhead, hlast, hchain⟩ := IH j hji hj f (by omega)
      refine ⟨path' ++ [sm.entries.get ⟨i, h⟩], ?_, by simp, ?_, List.getLast?_concat _, ?_⟩
      · show walkUp sm (f + 1) _ = _
        simp only [walkUp, hget, hp]
        rw [hjid] at hw
        rw [hw]
        rfl
      · intro hd hhd
        rw [List.head?_append] at hhd
        cases hh : path'.head? with
        | none => exact absurd (List.head?_eq_none_iff.1 hh) hne
        | some hd' =>
          rw [hh] at hhd
          simp at hhd
          rw [← hhd]
          exact hhead hd' hh
      · refine chainOk_append_last path' (sm.entries.get ⟨j, hj⟩) _ hchain hlast ?_
        rw [hp, hjid]

/-- Claim C6: on a well-formed session, `getBranch` from any existing
entry id returns a non-empty sequence whose first element has a null
`parentId`, whose last element is the requested entry, and in which every
adjacent pair is linked by `parentId`; a non-existent `fromId` fails with
`NotFoundError`; the no-argument form resolves to the current leaf. -/
theorem getBranch_spec (sm : SessionManager) (hwf : WellFormed sm = true) (id : String) :
    ((getEntry sm id).isSome = true →
      ∃ path e, getBranchFrom sm id = .ok path ∧ getEntry sm id = some e ∧ e.id = id ∧
        path ≠ [] ∧ (∀ hd, path.head? = some hd → hd.parentId = none) ∧
        path.getLast? = some e ∧ chainOk path = true) ∧
    (getEntry sm id = none → getBranchFrom sm id = .error SessionError.notFound) ∧
    (∀ l, getLeafId sm = some l → getBranch sm = getBranchFrom sm l) := by
  have hwf' : wfFrom [] sm.entries = true := by
    have h0 : (wfFrom [] sm.entries && _) = true := hwf
    exact (Bool.and_eq_true _ _ ▸ h0).1
  have hnd := wfFrom_nodup sm.entries [] hwf'
  have hpar0 : ∀ i, ∀ h : i < sm.entries.length, ∀ p,
      (sm.entries.get ⟨i, h⟩).parentId = some p →
      ∃ j, ∃ hj : j < sm.entries.length, j < i ∧ (sm.entries.get ⟨j, hj⟩).id = p := by
    intro i h p hp
    rcases wfFrom_parent_earlier sm.entries [] hwf' i h p hp with hin | hex
    · exact absurd hin (List.not_mem_nil p)
    · exact hex
  refine ⟨?_, ?_, ?_⟩
  · intro hs
    obtain ⟨e, he⟩ := Option.isSome_iff_exists.1 hs
    have heid : e.id = id := by simpa using List.find?_some he
    obtain ⟨⟨i, hi⟩, hget⟩ := List.get_of_mem (List.mem_of_find?_eq_some he)
    obtain ⟨path, hw, hne, hh, hl, hc⟩ :=
      walkUp_spec sm hnd hpar0 i hi sm.entries.length hi
    rw [hget] at hw hl
    rw [heid] at hw
    refine ⟨path, e, ?_, he, heid, hne, hh, hl, hc⟩
    simp only [getBranchFrom, he, hw]
  · intro hn
    simp only [getBranchFrom, hn]
  · intro l hl
    have : sm.leafId = some l := hl
    simp only [getBranch, this]

/-- Witness for `getBranch_spec` on the concrete branched session
`smDemo` at the leaf entry `"c"`. -/
theorem getBranch_spec_witness :
    WellFormed smDemo = true ∧ (getEntry smDemo "c").isSome = true ∧
    (∃ path e, getBranchFrom smDemo "c" = .ok path ∧ getEntry smDemo "c" = some e ∧
      e.id = "c" ∧ path ≠ [] ∧ (∀ hd, path.head? = some hd → hd.parentId = none) ∧
      path.getLast? = some e ∧ chainOk path = true) :=
  ⟨by decide, by decide, (getBranch_spec smDemo (by decide) "c").1 (by decide)⟩

/-! ## Session listing (`listSessions` in `src/agent/session.ts`) -/

/-- The pattern `".db"` has no border: appending it to a list it does not
already prefix cannot create an occurrence at the head. -/
theorem dbPat_isPrefixOf_append_false (c : Char) (cs : List Char)
    (h : List.isPrefixOf ['.', 'd', 'b'] (c :: cs) = false) :
    List.isPrefixOf ['.', 'd', 'b'] ((c :: cs) ++ ['.', 'd', 'b']) = false := by
  match cs with
  | [] =>
    have h1 : ('d' == '.') = false := by decide
    simp [List.isPrefixOf, h1]
  | [c2] =>
    have h1 : ('b' == '.') = false := by decide
    simp [List.isPrefixOf, h1]
  | c2 :: c3 :: rest =>
    simp only [List.cons_append, List.isPrefixOf] at h ⊢
    simpa using h

/-- When `".db"` does not occur in `l`, the first occurrence of `".db"` in
`l ++ ".db"` is the final one, so removing it gives back `l`. -/
theorem replaceFirstAux_db : ∀ (l : List Char),
    hasSubstrAux ['.', 'd', 'b'] l = false →
    replaceFirstAux ['.', 'd', 'b'] (l ++ ['.', 'd', 'b']) = l := by
  intro l
  induction l with
  | nil => intro _; decide
  | cons c cs ih =>
    intro h
    have hor : List.isPrefixOf ['.', 'd', 'b'] (c :: cs) = false ∧
        hasSubstrAux ['.', 'd', 'b'] cs = false := by
      have h0 : (List.isPrefixOf ['.', 'd', 'b'] (c :: cs) ||
          hasSubstrAux ['.', 'd', 'b'] cs) = false := h
      simpa using h0
    have hnp := dbPat_isPrefixOf_append_false c cs hor.1
    show replaceFirstAux ['.', 'd', 'b'] (c :: (cs ++ ['.', 'd', 'b'])) = c :: cs
    simp only [replaceFirstAux]
    rw [List.cons_append] at hnp
    rw [if_neg (by rw [hnp]; exact Bool.false_ne_true)]
    rw [ih hor.2]

/-- Every stored session file name `id ++ ".db"` passes the `.db` filter. -/
theorem strEndsWith_append_db (id : String) :
    strEndsWith (id ++ ".db") ".db" = true := by
  unfold strEndsWith
  rw [String.data_append]
  exact List.isSuffixOf_iff_suffix.2 (List.suffix_append _ _)

/-- For an id not containing `".db"`, stripping the first occurrence of
`".db"` from the stored file name recovers the id. -/
theorem replaceFirst_db (id : String) (h : hasSubstr id ".db" = false) :
    replaceFirst (id ++ ".db") ".db" = id := by
  unfold replaceFirst
  have hdata : (id ++ ".db").data = id.data ++ ['.', 'd', 'b'] := by
    rw [String.data_append]
  rw [hdata]
  rw [replaceFirstAux_db id.data h]

/-- Claim C10 (counterexample): `listSessions` strips the FIRST occurrence
of `".db"` (`f.replace(".db", "")`), not the final extension: after
`createSession("a.dbb")` the stored file is `"a.dbb.db"` and
`listSessions` reports `"ab.db"` — the created id is absent from the
listing. -/
theorem listSessions_first_occurrence_mangles :
    listSessions (createSession "a.dbb" "/base" ⟨false, []⟩).1 = ["ab.db"] ∧
    "a.dbb" ∉ listSessions (createSession "a.dbb" "/base" ⟨false, []⟩).1 := by
  constructor
  · decide
  · decide

/-- Claim C10 (amended): after `createSession(id, baseDir)` succeeds,
`listSessions(baseDir)` contains the id PROVIDED `".db"` does not occur
inside the id (the code removes the first occurrence of `".db"` from each
file name, which equals removing the extension exactly for such ids); and
`listSessions` returns the empty list when the sessions directory does
not exist. -/
theorem createSession_listed (id baseDir : String) (st : SessionsDir)
    (h : hasSubstr id ".db" = false) :
    id ∈ listSessions (createSession id baseDir st).1 ∧
    (∀ st2 : SessionsDir, st2.dirExists = false → listSessions st2 = []) := by
  constructor
  · have hmem : (id ++ ".db") ∈ (createSession id baseDir st).1.files := by
      show (id ++ ".db") ∈
        (if (ensureSessionsDir st).files.contains (id ++ ".db")
         then (ensureSessionsDir st).files
         else (ensureSessionsDir st).files ++ [id ++ ".db"])
      by_cases hc : (ensureSessionsDir st).files.contains (id ++ ".db") = true
      · rw [if_pos hc]
        simpa using hc
      · rw [if_neg hc]
        exact List.mem_append_right _ (by simp)
    show id ∈ listSessions _
    unfold listSessions
    rw [if_pos (show (createSession id baseDir st).1.dirExists = true from rfl)]
    exact List.mem_map.2
      ⟨id ++ ".db", List.mem_filter.2 ⟨hmem, strEndsWith_append_db id⟩,
       replaceFirst_db id h⟩
  · intro st2 h2
    simp [listSessions, h2]

/-- Witness for `createSession_listed` at a plain session id. -/
theorem createSession_listed_witness :
    hasSubstr "mysess" ".db" = false ∧
    "mysess" ∈ listSessions (createSession "mysess" "/base" ⟨false, []⟩).1 :=
  ⟨by decide, (createSession_listed "mysess" "/base" ⟨false, []⟩ (by decide)).1⟩

/-- Witness for `branch_spec` on the concrete session `smDemo`, branching
back to the root entry `"a"`. -/
theorem branch_spec_witness :
    (getEntry smDemo "a").isSome = true ∧
    (∃ sm', branch smDemo "a" = .ok sm' ∧ getLeafId sm' = some "a" ∧
      sm'.entries = smDemo.entries ∧
      (∀ id ts m,
        (appendMessage sm' id ts m).1.entries =
          smDemo.entries ++ [⟨id, some "a", ts, .message m⟩] ∧
        getChildren (appendMessage sm' id ts m).1 "a" =
          getChildren smDemo "a" ++ [⟨id, some "a", ts, .message m⟩])) :=
  ⟨by decide, (branch_spec smDemo "a").1 (by decide)⟩

end Xi
